import Mathlib

/-!
Shallow embedding of the resolc-specific core of the
`paritytech/foundry-revive-compiler` repository, together with proofs
about its documented behaviour.

Modelling conventions:
* Rust `String` / `str` values are lists of characters (`RStr`);
  `str::to_lowercase` is character-wise lowercasing (the paths and
  selector strings handled by this code are ASCII).
* Rust `PathBuf` / `Path` values are lists of components (`RPath`);
  `Path` comparison in Rust is lexicographic over components, which the
  `List` linear order mirrors.
* `BTreeMap`s are association lists with the `upsert` insertion that
  overwrites an existing key, exactly the visible semantics of
  `BTreeMap::insert` / `BTreeMap::extend`.
* Fallible Rust functions return `Except`/`Option`.
-/

namespace Revive

/-- Rust `String` / `str`, modelled as a list of characters. -/
abbrev RStr : Type := List Char

/-- Rust `str::to_lowercase` (character-wise; exact for the ASCII paths involved). -/
def lowerStr (s : RStr) : RStr := s.map Char.toLower

/-- Rust `PathBuf` / `Path`, modelled as its list of components. -/
abbrev RPath : Type := List RStr

/-- Rust `Path::to_string_lossy`: the components joined with a slash. -/
def pathToStr (p : RPath) : RStr := List.intercalate ['/'] p

/-- `path.to_string_lossy().to_lowercase()` as used by `retain_files`. -/
def lowerPath (p : RPath) : RStr := lowerStr (pathToStr p)

/-- `BTreeMap::insert` on the association-list model of a map. -/
def upsert {κ ν : Type} [DecidableEq κ] : List (κ × ν) → κ → ν → List (κ × ν)
  | [], k, v => [(k, v)]
  | (k0, v0) :: rest, k, v =>
    if k0 = k then (k, v) :: rest else (k0, v0) :: upsert rest k v

/-- `BTreeMap::get` on the association-list model of a map. -/
def mapLookup {κ ν : Type} [DecidableEq κ] : List (κ × ν) → κ → Option ν
  | [], _ => none
  | (k0, v0) :: rest, k => if k0 = k then some v0 else mapLookup rest k

/-- `BTreeMap::extend`: insert every entry of `other`, overwriting keys
already present in `m`. -/
def extendMap {κ ν : Type} [DecidableEq κ] (m other : List (κ × ν)) : List (κ × ν) :=
  other.foldl (fun acc kv => upsert acc kv.1 kv.2) m

/-- Boolean membership test (`HashSet::contains`) on a list model of a set. -/
def inList {α : Type} [DecidableEq α] : α → List α → Bool
  | _, [] => false
  | x, y :: ys => if y = x then true else inList x ys

/-- `Option::or`: first operand if present, otherwise the second. -/
def optOr {ν : Type} : Option ν → Option ν → Option ν
  | some x, _ => some x
  | none, b => b

theorem inList_iff {α : Type} [DecidableEq α] (x : α) (l : List α) :
    inList x l = true ↔ x ∈ l := by
  induction l with
  | nil => simp [inList]
  | cons y ys ih =>
    by_cases h : y = x
    · subst h
      simp [inList]
    · simp only [inList, if_neg h, ih, List.mem_cons]
      constructor
      · exact Or.inr
      · rintro (hxy | hy)
        · exact absurd hxy.symm h
        · exact hy

theorem mapLookup_upsert_self {κ ν : Type} [DecidableEq κ] (m : List (κ × ν)) (k : κ) (v : ν) :
    mapLookup (upsert m k v) k = some v := by
  induction m with
  | nil => simp [upsert, mapLookup]
  | cons kv rest ih =>
    obtain ⟨k0, v0⟩ := kv
    by_cases h : k0 = k <;> simp [upsert, mapLookup, h, ih]

theorem mapLookup_upsert_ne {κ ν : Type} [DecidableEq κ] (m : List (κ × ν)) (k j : κ) (v : ν)
    (hne : j ≠ k) : mapLookup (upsert m k v) j = mapLookup m j := by
  induction m with
  | nil =>
    simp [upsert, mapLookup, Ne.symm hne]
  | cons kv rest ih =>
    obtain ⟨k0, v0⟩ := kv
    by_cases h : k0 = k
    · subst h
      simp [upsert, mapLookup, Ne.symm hne]
    · simp [upsert, mapLookup, h, ih]

theorem mapLookup_eq_none_of_not_mem_keys {κ ν : Type} [DecidableEq κ]
    (m : List (κ × ν)) (k : κ) (h : k ∉ m.map Prod.fst) : mapLookup m k = none := by
  induction m with
  | nil => simp [mapLookup]
  | cons kv rest ih =>
    obtain ⟨k0, v0⟩ := kv
    simp only [List.map_cons, List.mem_cons] at h
    push_neg at h
    simp [mapLookup, Ne.symm h.1, ih h.2]

theorem mapLookup_extendMap {κ ν : Type} [DecidableEq κ] (m other : List (κ × ν)) (k : κ)
    (hnd : (other.map Prod.fst).Nodup) :
    mapLookup (extendMap m other) k = optOr (mapLookup other k) (mapLookup m k) := by
  induction other generalizing m with
  | nil => simp [extendMap, mapLookup, optOr]
  | cons kv rest ih =>
    obtain ⟨k0, v0⟩ := kv
    simp only [List.map_cons, List.nodup_cons] at hnd
    have hstep : extendMap m ((k0, v0) :: rest) = extendMap (upsert m k0 v0) rest := rfl
    rw [hstep, ih (upsert m k0 v0) hnd.2]
    by_cases h : k0 = k
    · subst h
      have hnone : mapLookup rest k0 = none :=
        mapLookup_eq_none_of_not_mem_keys rest k0 hnd.1
      simp [mapLookup, hnone, optOr, mapLookup_upsert_self]
    · have hne : k ≠ k0 := fun hh => h hh.symm
      simp [mapLookup, h, mapLookup_upsert_ne m k0 k v0 hne]

/-- `ResolcCompilerOutput` (crates/artifacts/resolc/src/lib.rs).  The
contract, source-file and error payloads are never inspected by the
operations verified here, so they are kept as type parameters `γ`, `σ`
and `ε`. -/
structure ResolcCompilerOutput (ε γ σ : Type) where
  contracts : List (RPath × List (RStr × γ))
  sources : List (RPath × σ)
  errors : List ε
  version : Option RStr
  longVersion : Option RStr
  reviveVersion : Option RStr

/-- `ResolcCompilerOutput::merge`: extends the error vector and the two
`BTreeMap`s with the second operand's entries. -/
def ResolcCompilerOutput.merge {ε γ σ : Type} (o other : ResolcCompilerOutput ε γ σ) :
    ResolcCompilerOutput ε γ σ :=
  { o with
    errors := o.errors ++ other.errors
    contracts := extendMap o.contracts other.contracts
    sources := extendMap o.sources other.sources }

/-- `ResolcCompilerOutput::retain_files`: keep only the contract and
source entries whose lowercased display path is among the lowercased
display paths of the given files. -/
def ResolcCompilerOutput.retain_files {ε γ σ : Type} (o : ResolcCompilerOutput ε γ σ)
    (files : List RPath) : ResolcCompilerOutput ε γ σ :=
  { o with
    contracts := o.contracts.filter (fun kv => inList (lowerPath kv.1) (files.map lowerPath))
    sources := o.sources.filter (fun kv => inList (lowerPath kv.1) (files.map lowerPath)) }

/-- `f.strip_prefix(root).unwrap_or(f)` as applied to each dirty file at
the `retain_files` call site in `CompilerSources::compile`. -/
def stripRoot (root p : RPath) : RPath :=
  if root.isPrefixOf p then p.drop root.length else p

/-- First operand of the C1 merge counterexample: file `a.sol` defines
contract `A` (payload `1`). -/
def c1Left : ResolcCompilerOutput Nat Nat Nat :=
  ⟨[(["a.sol".data], [("A".data, 1)])], [], [], none, none, none⟩

/-- Second operand of the C1 merge counterexample: the same file `a.sol`
with contract `B` (payload `2`). -/
def c1Right : ResolcCompilerOutput Nat Nat Nat :=
  ⟨[(["a.sol".data], [("B".data, 2)])], [], [], none, none, none⟩

/-- C1 counterexample: merging two outputs whose contract maps share the
file path `a.sol` does not keep the two contract entries in parallel —
the second operand's entry for `a.sol` replaces the first's wholesale,
so contract `A` of the first operand is absent from the merge result. -/
theorem C1_merge_counterexample :
    mapLookup c1Left.contracts ["a.sol".data] = some [("A".data, 1)]
    ∧ mapLookup (c1Left.merge c1Right).contracts ["a.sol".data] = some [("B".data, 2)]
    ∧ ((c1Left.merge c1Right).contracts.all
        (fun fc => fc.2.all (fun nc => decide (nc.1 ≠ "A".data)))) = true := by
  decide

/-- C1 (amended): `ResolcCompilerOutput::merge` loses no errors (the
error lists are concatenated), and on the contract and source maps it
performs a key-wise overwrite: a file path present in only one operand
keeps its entry, while for a file path present in both operands the
second operand's entry replaces the first's wholesale. -/
theorem C1_merge_amended {ε γ σ : Type} (o other : ResolcCompilerOutput ε γ σ) (p : RPath)
    (hc : (other.contracts.map Prod.fst).Nodup)
    (hs : (other.sources.map Prod.fst).Nodup) :
    (o.merge other).errors = o.errors ++ other.errors
    ∧ mapLookup (o.merge other).contracts p
        = optOr (mapLookup other.contracts p) (mapLookup o.contracts p)
    ∧ mapLookup (o.merge other).sources p
        = optOr (mapLookup other.sources p) (mapLookup o.sources p) := by
  refine ⟨rfl, ?_, ?_⟩
  · exact mapLookup_extendMap o.contracts other.contracts p hc
  · exact mapLookup_extendMap o.sources other.sources p hs

/-- C1 witness: the amended merge statement evaluated at the concrete
counterexample outputs. -/
theorem C1_merge_amended_witness :
    ((c1Right.contracts.map Prod.fst).Nodup ∧ (c1Right.sources.map Prod.fst).Nodup)
    ∧ ((c1Left.merge c1Right).errors = c1Left.errors ++ c1Right.errors
      ∧ mapLookup (c1Left.merge c1Right).contracts ["a.sol".data]
          = optOr (mapLookup c1Right.contracts ["a.sol".data])
              (mapLookup c1Left.contracts ["a.sol".data])
      ∧ mapLookup (c1Left.merge c1Right).sources ["a.sol".data]
          = optOr (mapLookup c1Right.sources ["a.sol".data])
              (mapLookup c1Left.sources ["a.sol".data])) :=
  ⟨⟨by decide, by decide⟩,
    C1_merge_amended c1Left c1Right ["a.sol".data] (by decide) (by decide)⟩

/-- C5: after `retain_files` (called on the dirty file list with the
project root stripped from each path), a contract or source entry
survives if and only if it was present before and its lowercased display
path equals the lowercased display path of one of the stripped dirty
files. -/
theorem C5_retain_files {ε γ σ : Type} (o : ResolcCompilerOutput ε γ σ)
    (dirty : List RPath) (root : RPath) (p : RPath) (cv : List (RStr × γ)) (sv : σ) :
    ((p, cv) ∈ (o.retain_files (dirty.map (stripRoot root))).contracts
      ↔ ((p, cv) ∈ o.contracts
          ∧ lowerPath p ∈ (dirty.map (stripRoot root)).map lowerPath))
    ∧ ((p, sv) ∈ (o.retain_files (dirty.map (stripRoot root))).sources
      ↔ ((p, sv) ∈ o.sources
          ∧ lowerPath p ∈ (dirty.map (stripRoot root)).map lowerPath)) := by
  constructor <;>
    simp [ResolcCompilerOutput.retain_files, List.mem_filter, inList_iff]

/-- Rust `str::split(c)`: split at every occurrence of the character,
keeping empty segments (so the result is always non-empty). -/
def splitChar (c : Char) : RStr → List RStr
  | [] => [[]]
  | x :: xs =>
    match splitChar c xs with
    | [] => [[]]
    | r :: rs => if x = c then [] :: r :: rs else (x :: r) :: rs

/-- Rust `Path::file_stem` applied to a file name: the portion before
the last dot, the whole name when there is no dot or when the name is a
dot-led hidden file with a single dot. -/
def stemOfName (n : RStr) : RStr :=
  match splitChar '.' n with
  | [] => n
  | [_] => n
  | p0 :: rest =>
    if p0 = [] ∧ rest.length = 1 then n
    else List.intercalate ['.'] ((p0 :: rest).dropLast)

/-- `Path::new(file).file_stem().and_then(|stem| stem.to_str())`. -/
def fileStem (p : RPath) : Option RStr := p.getLast?.map stemOfName

/-- The sort key of `resolc_output_to_artifacts`:
`(file1.components().count(), file1).cmp(&(file2.components().count(), file2))` —
ascending component count, ties broken by the component-wise path order. -/
def keyLe (a b : RPath) : Prop :=
  a.length < b.length ∨ (a.length = b.length ∧ a ≤ b)

instance : DecidableRel keyLe := fun a b => by
  unfold keyLe
  infer_instance

instance : IsTotal RPath keyLe := ⟨by
  intro a b
  rcases Nat.lt_trichotomy a.length b.length with h | h | h
  · exact Or.inl (Or.inl h)
  · rcases le_total a b with hab | hba
    · exact Or.inl (Or.inr ⟨h, hab⟩)
    · exact Or.inr (Or.inr ⟨h.symm, hba⟩)
  · exact Or.inr (Or.inl h)⟩

instance : IsTrans RPath keyLe := ⟨by
  intro a b c hab hbc
  rcases hab with h1 | ⟨e1, l1⟩
  · rcases hbc with h2 | ⟨e2, l2⟩
    · exact Or.inl (h1.trans h2)
    · exact Or.inl (e2 ▸ h1)
  · rcases hbc with h2 | ⟨e2, l2⟩
    · exact Or.inl (e1 ▸ h2)
    · exact Or.inr ⟨e1.trans e2, l1.trans l2⟩⟩

instance : IsAntisymm RPath keyLe := ⟨by
  intro a b hab hba
  rcases hab with h1 | ⟨e1, l1⟩
  · rcases hba with h2 | ⟨e2, l2⟩
    · exact absurd h1 (Nat.lt_asymm h2)
    · exact absurd h1 (by omega)
  · rcases hba with h2 | ⟨e2, l2⟩
    · exact absurd h2 (by omega)
    · exact le_antisymm l1 l2⟩

/-- The file-ordering step of `resolc_output_to_artifacts`: the contract
map's file keys sorted by `keyLe`.  `keyLe` is an antisymmetric total
order, so the source's stable `sort_by` computes the same list as this
insertion sort. -/
def sortFiles (l : List RPath) : List RPath := List.insertionSort keyLe l

/-- An assigned artifact file path: the deterministically derived base
name together with the numeric disambiguation suffix appended on
case-insensitive collision (`0` meaning the undecorated name). -/
structure ArtPath where
  base : RStr
  suffix : Nat
deriving DecidableEq

/-- The case-insensitive form of an artifact path, as stored in the
`taken_paths_lowercase` set (`to_slash_lossy().to_lowercase()`). -/
def lowerArt (p : ArtPath) : RStr × Nat := (lowerStr p.base, p.suffix)

/-- Modelled from the spec: the collision-avoidance step of
`ArtifactOutput::get_artifact_path` (crates/compilers/src/artifact_output,
not under src/): starting from the deterministically derived candidate
name, while the candidate collides case-insensitively with the taken
set, disambiguate deterministically with a numeric suffix.  Searching
suffixes `0 .. taken.length` always finds a free one. -/
def freeSuffix (taken : List (RStr × Nat)) (lb : RStr) : Nat :=
  ((List.range (taken.length + 1)).find? (fun n => !(inList (lb, n) taken))).getD
    (taken.length + 1)

theorem no_injection_into_shorter {α : Type} [DecidableEq α] (taken : List α) (f : Nat → α)
    (hinj : Function.Injective f) :
    ¬ (∀ n ∈ List.range (taken.length + 1), f n ∈ taken) := by
  intro hall
  have hsub : ((List.range (taken.length + 1)).map f).toFinset ⊆ taken.toFinset := by
    intro x hx
    rw [List.mem_toFinset] at hx ⊢
    obtain ⟨n, hn, rfl⟩ := List.mem_map.mp hx
    exact hall n hn
  have hnd : ((List.range (taken.length + 1)).map f).Nodup :=
    List.Nodup.map hinj (List.nodup_range _)
  have hcard : ((List.range (taken.length + 1)).map f).toFinset.card = taken.length + 1 := by
    rw [List.toFinset_card_of_nodup hnd, List.length_map, List.length_range]
  have hle1 := Finset.card_le_card hsub
  have hle2 := List.toFinset_card_le taken
  omega

theorem freeSuffix_not_mem (taken : List (RStr × Nat)) (lb : RStr) :
    (lb, freeSuffix taken lb) ∉ taken := by
  cases hf : (List.range (taken.length + 1)).find? (fun n => !(inList (lb, n) taken)) with
  | some n =>
    have hval : freeSuffix taken lb = n := by
      unfold freeSuffix
      rw [hf, Option.getD_some]
    rw [hval]
    intro hmem
    have htrue := (inList_iff ((lb, n)) taken).mpr hmem
    have hfalse := List.find?_some hf
    rw [htrue] at hfalse
    simp at hfalse
  | none =>
    exfalso
    have hall : ∀ n ∈ List.range (taken.length + 1), (lb, n) ∈ taken := by
      intro n hn
      have hx := List.find?_eq_none.mp hf n hn
      have hx2 : inList (lb, n) taken = true := by simpa using hx
      exact (inList_iff _ _).mp hx2
    exact no_injection_into_shorter taken (fun n => (lb, n))
      (fun a b h => congrArg Prod.snd h) hall

/-- One `VersionedContract` entry: version, profile and build id.  The
contract payload is opaque to path assignment and omitted. -/
structure VC where
  version : Nat
  profile : RStr
  buildId : RStr
deriving DecidableEq

/-- `VersionedContracts`: file → contract name → compiled entries. -/
abbrev VersionedContracts : Type := List (RPath × List (RStr × List VC))

/-- A parse tree.  Modelled from the spec: the only query the artifact
conversion makes of it is whether it contains a contract definition. -/
structure Ast where
  hasContractDefinition : Bool
deriving DecidableEq

/-- A `SourceFile` as consumed by the artifact conversion: its id and
its optional parse tree. -/
structure SourceData where
  id : Nat
  ast : Option Ast
deriving DecidableEq

/-- Modelled from the spec: `SourceFile::contains_contract_definition`
(foundry-compilers-artifacts, not under src/) scans the parse tree for a
`ContractDefinition` node. -/
def containsContractDefinition (s : SourceData) : Bool :=
  match s.ast with
  | none => false
  | some a => a.hasContractDefinition

/-- A `VersionedSourceFile`. -/
structure VSourceFile where
  sourceFile : SourceData
  version : Nat
  profile : RStr
  buildId : RStr
deriving DecidableEq

/-- `ResolcArtifactOutput::standalone_source_file_to_artifact`
(resolc_artifact_output.rs lines 196-203): unconditionally `None`. -/
def standalone_source_file_to_artifact (_path : RPath) (_file : VSourceFile) : Option Unit :=
  none

/-- One materialized `ArtifactFile` record (artifact payload opaque). -/
structure AFile where
  file : ArtPath
  version : Nat
  buildId : RStr
  profile : RStr
deriving DecidableEq

/-- The artifacts map under construction: file → contract name → artifact files. -/
abbrev AMap : Type := List (RPath × List (RStr × List AFile))

/-- `entry(name).or_default().push(af)` on the inner map. -/
def pushInner : List (RStr × List AFile) → RStr → AFile → List (RStr × List AFile)
  | [], n, af => [(n, [af])]
  | (n0, fs) :: rest, n, af =>
    if n0 = n then (n0, fs ++ [af]) :: rest else (n0, fs) :: pushInner rest n af

/-- `artifacts.entry(file).or_default().entry(name).or_default().push(af)`. -/
def pushArtifact : AMap → RPath → RStr → AFile → AMap
  | [], f, n, af => [(f, [(n, [af])])]
  | (f0, inner) :: rest, f, n, af =>
    if f0 = f then (f0, pushInner inner n af) :: rest
    else (f0, inner) :: pushArtifact rest f n af

/-- Number of distinct elements (`HashSet::len` of the collected set). -/
def distinctCount {α : Type} [DecidableEq α] : List α → Nat
  | [] => 0
  | x :: xs => if inList x xs then distinctCount xs else distinctCount xs + 1

/-- The mutable state threaded through `resolc_output_to_artifacts`: the
artifacts map, the `taken_paths_lowercase` set and the
`non_standalone_sources` set. -/
structure ConvState where
  artifacts : AMap
  taken : List (RStr × Nat)
  nss : List RPath

/-- Modelled from the spec: the deterministic candidate-name derivation
inside `get_artifact_path` (file, contract name, version, profile, and
the two "several versions / several profiles" flags), kept abstract —
the collision handling guarantees uniqueness for every derivation. -/
abbrev BaseOf : Type := RPath → RStr → Nat → RStr → Bool → Bool → RStr

/-- One versioned contract in the main loop of
`resolc_output_to_artifacts`: record the file in
`non_standalone_sources`, assign the collision-avoided artifact path,
mark it taken and push the artifact record. -/
def applyVC (baseOf : BaseOf) (file : RPath) (name : RStr) (uv up : Bool) (vc : VC)
    (st : ConvState) : ConvState :=
  let b := baseOf file name vc.version vc.profile uv up
  let ap : ArtPath := ⟨b, freeSuffix st.taken (lowerStr b)⟩
  { artifacts := pushArtifact st.artifacts file name ⟨ap, vc.version, vc.buildId, vc.profile⟩
    taken := lowerArt ap :: st.taken
    nss := file :: st.nss }

/-- One `(name, versioned contracts)` entry of a file's contract map. -/
def applyName (baseOf : BaseOf) (file : RPath) (nc : RStr × List VC) (st : ConvState) :
    ConvState :=
  let uv := decide (1 < distinctCount (nc.2.map VC.version))
  let up := decide (1 < distinctCount (nc.2.map VC.profile))
  nc.2.foldl (fun s vc => applyVC baseOf file nc.1 uv up vc s) st

/-- The body of the main file loop. -/
def applyFile (baseOf : BaseOf) (contracts : VersionedContracts) (st : ConvState)
    (file : RPath) : ConvState :=
  match mapLookup contracts file with
  | none => st
  | some ncs => ncs.foldl (fun s nc => applyName baseOf file nc s) st

/-- One versioned source file in the standalone loop (resolc_artifact_output.rs
lines 342-393). -/
def applySource (baseOf : BaseOf) (file : RPath) (uv up : Bool) (vs : VSourceFile)
    (st : ConvState) : ConvState :=
  if inList file st.nss then st
  else if vs.sourceFile.ast.isNone || containsContractDefinition vs.sourceFile then st
  else
    match fileStem file with
    | none => st
    | some name =>
      match standalone_source_file_to_artifact file vs with
      | none => st
      | some _ =>
        let b := baseOf file name vs.version vs.profile uv up
        let ap : ArtPath := ⟨b, freeSuffix st.taken (lowerStr b)⟩
        { artifacts := pushArtifact st.artifacts file name ⟨ap, vs.version, vs.buildId, vs.profile⟩
          taken := lowerArt ap :: st.taken
          nss := st.nss }

/-- The sorted file processing order of the main loop. -/
def processingOrder (contracts : VersionedContracts) : List RPath :=
  sortFiles (contracts.map Prod.fst)

/-- `ResolcArtifactOutput::resolc_output_to_artifacts`
(resolc_artifact_output.rs lines 253-396): the main contract loop in
shallow-first file order, followed by the standalone source-file loop. -/
def resolc_output_to_artifacts (baseOf : BaseOf) (existingLower : List (RStr × Nat))
    (contracts : VersionedContracts) (sources : List (RPath × List VSourceFile)) : AMap :=
  let st1 := (processingOrder contracts).foldl (applyFile baseOf contracts)
    ⟨[], existingLower, []⟩
  let st2 := sources.foldl (fun st fs =>
    let uv := decide (1 < distinctCount (fs.2.map VSourceFile.version))
    let up := decide (1 < distinctCount (fs.2.map VSourceFile.profile))
    fs.2.foldl (fun s vs => applySource baseOf fs.1 uv up vs s) st) st1
  st2.artifacts

/-- All artifact records of an artifacts map. -/
def allAssigned (m : AMap) : List AFile :=
  m.flatMap (fun fe => fe.2.flatMap (fun ne => ne.2))

/-- The position of the first occurrence of an element in a list. -/
def idxOf {α : Type} [DecidableEq α] (x : α) : List α → Nat
  | [] => 0
  | y :: ys => if y = x then 0 else idxOf x ys + 1

theorem idxOf_lt_length {α : Type} [DecidableEq α] {x : α} {l : List α} (h : x ∈ l) :
    idxOf x l < l.length := by
  induction l with
  | nil => cases h
  | cons y ys ih =>
    by_cases hy : y = x
    · simp [idxOf, hy]
    · have hmem : x ∈ ys := by
        rcases List.mem_cons.mp h with h1 | h1
        · exact absurd h1.symm hy
        · exact h1
      simp only [idxOf, if_neg hy, List.length_cons]
      exact Nat.succ_lt_succ (ih hmem)

theorem get_idxOf {α : Type} [DecidableEq α] {x : α} {l : List α} (h : x ∈ l) :
    l.get ⟨idxOf x l, idxOf_lt_length h⟩ = x := by
  induction l with
  | nil => cases h
  | cons y ys ih =>
    by_cases hy : y = x
    · simp [idxOf, hy]
    · have hmem : x ∈ ys := by
        rcases List.mem_cons.mp h with h1 | h1
        · exact absurd h1.symm hy
        · exact h1
      simp only [idxOf, if_neg hy]
      exact ih hmem

/-- C6: the files of the contract map are processed in ascending order
of component count, ties broken by path comparison; a strictly shallower
file is always processed before a deeper one; and the order depends only
on the set of files, not on the input ordering. -/
theorem C6_processing_order (c1 c2 : VersionedContracts) (a b : RPath)
    (ha : a ∈ c1.map Prod.fst) (hb : b ∈ c1.map Prod.fst)
    (hab : a.length < b.length)
    (hperm : (c1.map Prod.fst).Perm (c2.map Prod.fst)) :
    (processingOrder c1).Perm (c1.map Prod.fst)
    ∧ List.Sorted keyLe (processingOrder c1)
    ∧ idxOf a (processingOrder c1) < idxOf b (processingOrder c1)
    ∧ processingOrder c1 = processingOrder c2 := by
  have hperm1 : (processingOrder c1).Perm (c1.map Prod.fst) :=
    List.perm_insertionSort keyLe _
  have hsorted : List.Sorted keyLe (processingOrder c1) :=
    List.sorted_insertionSort keyLe _
  refine ⟨hperm1, hsorted, ?_, ?_⟩
  · have haS : a ∈ processingOrder c1 := hperm1.mem_iff.mpr ha
    have hbS : b ∈ processingOrder c1 := hperm1.mem_iff.mpr hb
    by_contra hle
    push_neg at hle
    rcases Nat.lt_or_ge (idxOf b (processingOrder c1)) (idxOf a (processingOrder c1))
      with hlt | hge
    · have hrel := List.pairwise_iff_get.mp hsorted
        ⟨idxOf b (processingOrder c1), idxOf_lt_length hbS⟩
        ⟨idxOf a (processingOrder c1), idxOf_lt_length haS⟩ (Fin.mk_lt_mk.mpr hlt)
      rw [get_idxOf hbS, get_idxOf haS] at hrel
      rcases hrel with h | ⟨h, _⟩
      · omega
      · omega
    · have heq : idxOf b (processingOrder c1) = idxOf a (processingOrder c1) := by omega
      have hba : b = a := by
        have h1 := get_idxOf hbS
        have h2 := get_idxOf haS
        rw [← h1, ← h2]
        congr 1
        exact Fin.mk_eq_mk.mpr heq
      rw [hba] at hab
      omega
  · have hperm2 : (processingOrder c2).Perm (c2.map Prod.fst) :=
      List.perm_insertionSort keyLe _
    exact List.eq_of_perm_of_sorted (hperm1.trans (hperm.trans hperm2.symm)) hsorted
      (List.sorted_insertionSort keyLe _)

/-- C6 witness: a two-file contract map in scrambled input order. -/
theorem C6_processing_order_witness :
    ((["a.sol".data] : RPath) ∈
        ([(["src".data, "b.sol".data], []), (["a.sol".data], [])] : VersionedContracts).map
          Prod.fst
      ∧ (["src".data, "b.sol".data] : RPath) ∈
        ([(["src".data, "b.sol".data], []), (["a.sol".data], [])] : VersionedContracts).map
          Prod.fst
      ∧ (["a.sol".data] : RPath).length < (["src".data, "b.sol".data] : RPath).length
      ∧ (([(["src".data, "b.sol".data], []), (["a.sol".data], [])] :
          VersionedContracts).map Prod.fst).Perm
          (([(["a.sol".data], []), (["src".data, "b.sol".data], [])] :
            VersionedContracts).map Prod.fst))
    ∧ ((processingOrder [(["src".data, "b.sol".data], []), (["a.sol".data], [])]).Perm
        (([(["src".data, "b.sol".data], []), (["a.sol".data], [])] :
          VersionedContracts).map Prod.fst)
      ∧ List.Sorted keyLe
          (processingOrder [(["src".data, "b.sol".data], []), (["a.sol".data], [])])
      ∧ idxOf (["a.sol".data] : RPath)
            (processingOrder [(["src".data, "b.sol".data], []), (["a.sol".data], [])])
          < idxOf (["src".data, "b.sol".data] : RPath)
            (processingOrder [(["src".data, "b.sol".data], []), (["a.sol".data], [])])
      ∧ processingOrder [(["src".data, "b.sol".data], []), (["a.sol".data], [])]
          = processingOrder [(["a.sol".data], []), (["src".data, "b.sol".data], [])]) :=
  ⟨⟨by decide, by decide, by decide, by decide⟩,
    C6_processing_order
      [(["src".data, "b.sol".data], []), (["a.sol".data], [])]
      [(["a.sol".data], []), (["src".data, "b.sol".data], [])]
      ["a.sol".data] ["src".data, "b.sol".data]
      (by decide) (by decide) (by decide) (by decide)⟩

theorem applySource_eq (baseOf : BaseOf) (file : RPath) (uv up : Bool) (vs : VSourceFile)
    (st : ConvState) : applySource baseOf file uv up vs st = st := by
  unfold applySource
  split
  · rfl
  · split
    · rfl
    · cases fileStem file <;> rfl

theorem foldl_inv {β χ : Type} (P : β → Prop) (step : β → χ → β)
    (hstep : ∀ s x, P s → P (step s x)) (l : List χ) :
    ∀ s : β, P s → P (l.foldl step s) := by
  induction l with
  | nil => intro s hs; simpa using hs
  | cons x xs ih =>
    intro s hs
    rw [List.foldl_cons]
    exact ih _ (hstep s x hs)

theorem foldl_fixed {β χ : Type} (step : β → χ → β) (h : ∀ s x, step s x = s) (l : List χ) :
    ∀ s : β, l.foldl step s = s := by
  induction l with
  | nil => intro s; rfl
  | cons x xs ih =>
    intro s
    rw [List.foldl_cons, h s x]
    exact ih s

theorem flatSnd_pushInner (inner : List (RStr × List AFile)) (n : RStr) (af : AFile) :
    ((pushInner inner n af).flatMap (fun ne => ne.2)).Perm
      (af :: inner.flatMap (fun ne => ne.2)) := by
  induction inner with
  | nil => simp [pushInner]
  | cons e rest ih =>
    obtain ⟨n0, fs⟩ := e
    by_cases h : n0 = n
    · simp only [pushInner, if_pos h, List.flatMap_cons]
      have hassoc : fs ++ [af] ++ rest.flatMap (fun ne => ne.2)
          = fs ++ (af :: rest.flatMap (fun ne => ne.2)) := by
        simp [List.append_assoc]
      rw [hassoc]
      exact List.perm_middle
    · simp only [pushInner, if_neg h, List.flatMap_cons]
      exact (List.Perm.append_left fs ih).trans List.perm_middle

theorem allAssigned_push (m : AMap) (f : RPath) (n : RStr) (af : AFile) :
    (allAssigned (pushArtifact m f n af)).Perm (af :: allAssigned m) := by
  induction m with
  | nil => simp [pushArtifact, allAssigned, pushInner]
  | cons e rest ih =>
    obtain ⟨f0, inner⟩ := e
    by_cases h : f0 = f
    · simp only [pushArtifact, if_pos h, allAssigned, List.flatMap_cons]
      exact (flatSnd_pushInner inner n af).append_right _
    · simp only [pushArtifact, if_neg h, allAssigned, List.flatMap_cons]
      exact (List.Perm.append_left _ ih).trans List.perm_middle

/-- The path-assignment invariant: lowercased assigned artifact paths
are pairwise distinct, disjoint from the pre-existing cached artifact
paths, and all recorded in the taken set, which also still contains
every pre-existing path. -/
def StInv (existing : List (RStr × Nat)) (st : ConvState) : Prop :=
  ((allAssigned st.artifacts).map (fun a => lowerArt a.file)).Nodup
  ∧ (∀ x ∈ (allAssigned st.artifacts).map (fun a => lowerArt a.file), x ∉ existing)
  ∧ (∀ x ∈ (allAssigned st.artifacts).map (fun a => lowerArt a.file), x ∈ st.taken)
  ∧ (∀ x ∈ existing, x ∈ st.taken)

theorem StInv_assign (existing : List (RStr × Nat)) (st : ConvState) (file : RPath)
    (name : RStr) (b : RStr) (ver : Nat) (bid pro : RStr) (nss2 : List RPath)
    (h : StInv existing st) :
    StInv existing
      ⟨pushArtifact st.artifacts file name
          ⟨⟨b, freeSuffix st.taken (lowerStr b)⟩, ver, bid, pro⟩,
        lowerArt ⟨b, freeSuffix st.taken (lowerStr b)⟩ :: st.taken, nss2⟩ := by
  obtain ⟨hnd, hnex, htak, hext⟩ := h
  have hfree : lowerArt ⟨b, freeSuffix st.taken (lowerStr b)⟩ ∉ st.taken :=
    freeSuffix_not_mem st.taken (lowerStr b)
  have hperm : (allAssigned (pushArtifact st.artifacts file name
      ⟨⟨b, freeSuffix st.taken (lowerStr b)⟩, ver, bid, pro⟩)).Perm
      (⟨⟨b, freeSuffix st.taken (lowerStr b)⟩, ver, bid, pro⟩ :: allAssigned st.artifacts) :=
    allAssigned_push st.artifacts file name _
  have hpermL : ((allAssigned (pushArtifact st.artifacts file name
      ⟨⟨b, freeSuffix st.taken (lowerStr b)⟩, ver, bid, pro⟩)).map
        (fun a => lowerArt a.file)).Perm
      (lowerArt ⟨b, freeSuffix st.taken (lowerStr b)⟩
        :: (allAssigned st.artifacts).map (fun a => lowerArt a.file)) :=
    hperm.map (fun a => lowerArt a.file)
  refine ⟨?_, ?_, ?_, ?_⟩
  · rw [hpermL.nodup_iff]
    rw [List.nodup_cons]
    refine ⟨fun hmem => hfree (htak _ hmem), hnd⟩
  · intro x hx
    rcases List.mem_cons.mp (hpermL.mem_iff.mp hx) with hx1 | hx1
    · subst hx1
      exact fun hex => hfree (hext _ hex)
    · exact hnex x hx1
  · intro x hx
    rcases List.mem_cons.mp (hpermL.mem_iff.mp hx) with hx1 | hx1
    · subst hx1
      exact List.mem_cons_self _ _
    · exact List.mem_cons_of_mem _ (htak x hx1)
  · intro x hx
    exact List.mem_cons_of_mem _ (hext x hx)

theorem applyVC_inv (baseOf : BaseOf) (file : RPath) (name : RStr) (uv up : Bool) (vc : VC)
    (existing : List (RStr × Nat)) (st : ConvState) (h : StInv existing st) :
    StInv existing (applyVC baseOf file name uv up vc st) :=
  StInv_assign existing st file name (baseOf file name vc.version vc.profile uv up)
    vc.version vc.buildId vc.profile (file :: st.nss) h

theorem applyName_inv (baseOf : BaseOf) (file : RPath) (nc : RStr × List VC)
    (existing : List (RStr × Nat)) (st : ConvState) (h : StInv existing st) :
    StInv existing (applyName baseOf file nc st) := by
  unfold applyName
  exact foldl_inv (StInv existing) _
    (fun s vc hs => applyVC_inv baseOf file nc.1 _ _ vc existing s hs) nc.2 st h

theorem applyFile_inv (baseOf : BaseOf) (contracts : VersionedContracts)
    (existing : List (RStr × Nat)) (st : ConvState) (file : RPath) (h : StInv existing st) :
    StInv existing (applyFile baseOf contracts st file) := by
  unfold applyFile
  cases mapLookup contracts file with
  | none => exact h
  | some ncs =>
    exact foldl_inv (StInv existing) _
      (fun s nc hs => applyName_inv baseOf file nc existing s hs) ncs st h

/-- The standalone loop never changes the state, because
`standalone_source_file_to_artifact` is unconditionally `None`: the
result of `resolc_output_to_artifacts` is the main contract loop's. -/
theorem resolc_output_eq_main (baseOf : BaseOf) (existing : List (RStr × Nat))
    (contracts : VersionedContracts) (sources : List (RPath × List VSourceFile)) :
    resolc_output_to_artifacts baseOf existing contracts sources
      = ((processingOrder contracts).foldl (applyFile baseOf contracts)
          ⟨[], existing, []⟩).artifacts := by
  simp only [resolc_output_to_artifacts]
  congr 1
  apply foldl_fixed
  intro s fs
  apply foldl_fixed
  intro s2 vs
  exact applySource_eq baseOf fs.1 _ _ vs s2

/-- C3: every artifact path assigned in one `resolc_output_to_artifacts`
call is case-insensitively distinct from every other assigned path (in
particular for distinct (file, contract, version, profile) tuples) and
from every pre-existing cached artifact path of the output context. -/
theorem C3_path_uniqueness (baseOf : BaseOf) (existing : List (RStr × Nat))
    (contracts : VersionedContracts) (sources : List (RPath × List VSourceFile)) (af : AFile)
    (haf : af ∈ allAssigned (resolc_output_to_artifacts baseOf existing contracts sources)) :
    ((allAssigned (resolc_output_to_artifacts baseOf existing contracts sources)).map
        (fun a => lowerArt a.file)).Nodup
    ∧ lowerArt af.file ∉ existing := by
  have hmain := resolc_output_eq_main baseOf existing contracts sources
  have hinv : StInv existing ((processingOrder contracts).foldl (applyFile baseOf contracts)
      ⟨[], existing, []⟩) := by
    apply foldl_inv (StInv existing) _
      (fun s file hs => applyFile_inv baseOf contracts existing s file hs)
    refine ⟨by simp [allAssigned], by simp [allAssigned], by simp [allAssigned],
      fun x hx => hx⟩
  obtain ⟨hnd, hnex, _, _⟩ := hinv
  rw [hmain] at haf ⊢
  exact ⟨hnd, hnex _ (List.mem_map_of_mem (fun a => lowerArt a.file) haf)⟩

/-- Candidate-name derivation used by the C3 witness. -/
def c3Base : BaseOf := fun _ name _ _ _ _ => name

/-- Pre-existing cached artifact path set used by the C3 witness. -/
def c3Existing : List (RStr × Nat) := [(lowerStr "C".data, 0)]

/-- Contract map used by the C3 witness. -/
def c3Contracts : VersionedContracts :=
  [(["c.sol".data], [("C".data, [⟨1, "default".data, "b1".data⟩])])]

/-- C3 witness: a contract whose candidate name collides
case-insensitively with a cached artifact receives suffix 1, and the
uniqueness statement holds at this concrete input. -/
theorem C3_path_uniqueness_witness :
    ((⟨⟨"C".data, 1⟩, 1, "b1".data, "default".data⟩ : AFile)
        ∈ allAssigned (resolc_output_to_artifacts c3Base c3Existing c3Contracts []))
    ∧ (((allAssigned (resolc_output_to_artifacts c3Base c3Existing c3Contracts [])).map
          (fun a => lowerArt a.file)).Nodup
      ∧ lowerArt (⟨⟨"C".data, 1⟩, 1, "b1".data, "default".data⟩ : AFile).file
          ∉ c3Existing) :=
  ⟨by decide,
    C3_path_uniqueness c3Base c3Existing c3Contracts []
      ⟨⟨"C".data, 1⟩, 1, "b1".data, "default".data⟩ (by decide)⟩

/-- Candidate-name derivation used by the C2 evaluation. -/
def c2Base : BaseOf := fun _ name _ _ _ _ => name

/-- Source-file map used by the C2 evaluation: one parsed file with no
contract definition and no compiled contract. -/
def c2Sources : List (RPath × List VSourceFile) :=
  [(["a.sol".data], [⟨⟨1, some ⟨false⟩⟩, 1, "default".data, "bid".data⟩])]

/-- C2: evaluating `resolc_output_to_artifacts` on a source file that
was parsed (ast present), contains no contract definition and is mapped
to no compiled contract yields an empty artifacts map — no standalone
artifact record is synthesized, because
`standalone_source_file_to_artifact` returns `None` unconditionally. -/
theorem C2_no_standalone_artifact :
    resolc_output_to_artifacts c2Base [] [] c2Sources = []
    ∧ (c2Sources.all (fun fs => fs.2.all (fun vs =>
        vs.sourceFile.ast.isSome && !containsContractDefinition vs.sourceFile))) = true
    ∧ mapLookup ([] : VersionedContracts) ["a.sol".data] = none := by
  decide

instance exceptDecEq {ε α : Type} [DecidableEq ε] [DecidableEq α] :
    DecidableEq (Except ε α) := fun x y =>
  match x, y with
  | Except.ok a, Except.ok b =>
    if h : a = b then isTrue (by rw [h]) else isFalse (fun hh => h (by injection hh))
  | Except.error a, Except.error b =>
    if h : a = b then isTrue (by rw [h]) else isFalse (fun hh => h (by injection hh))
  | Except.ok _, Except.error _ => isFalse (fun hh => Except.noConfusion hh)
  | Except.error _, Except.ok _ => isFalse (fun hh => Except.noConfusion hh)

/-- A finished external process: exit status and captured byte streams. -/
structure ProcessOutput where
  success : Bool
  stdout : List Nat
  stderr : List Nat
deriving DecidableEq

/-- `SolcError` as far as `Resolc::compile` distinguishes its cases. -/
inductive CompileErr
  | solcOutput (stdout stderr : List Nat)
  | invalidUtf8
  | jsonMsg
deriving DecidableEq

/-- `compile_output` (compiler.rs lines 645-651): forward stdout on
success, wrap the whole process output in an error otherwise. -/
def compile_output (o : ProcessOutput) : Except CompileErr (List Nat) :=
  if o.success then Except.ok o.stdout
  else Except.error (CompileErr.solcOutput o.stdout o.stderr)

/-- `Resolc::compile` (compiler.rs lines 487-491), parameterized over
the UTF-8 decoder (`std::str::from_utf8`) and the JSON deserializer
(`serde_json::from_str`), both external collaborators. -/
def resolcCompile {Out : Type} (utf8 : List Nat → Option RStr) (parse : RStr → Option Out)
    (o : ProcessOutput) : Except CompileErr Out :=
  match compile_output o with
  | Except.error e => Except.error e
  | Except.ok bytes =>
    match utf8 bytes with
    | none => Except.error CompileErr.invalidUtf8
    | some s =>
      match parse s with
      | none => Except.error CompileErr.jsonMsg
      | some out => Except.ok out

/-- C7: a non-zero exit wraps the process output into an error and never
reaches the JSON parser; a parsed output is returned only when the
process succeeded, its stdout decoded as UTF-8 and the decoded text
parsed; a successful exit with non-UTF-8 stdout yields `invalidUtf8`. -/
theorem C7_compile_output_handling {Out : Type} (utf8 : List Nat → Option RStr)
    (parse : RStr → Option Out) (o : ProcessOutput) :
    (o.success = false →
      resolcCompile utf8 parse o = Except.error (CompileErr.solcOutput o.stdout o.stderr))
    ∧ (∀ out, resolcCompile utf8 parse o = Except.ok out →
        o.success = true ∧ ∃ s, utf8 o.stdout = some s ∧ parse s = some out)
    ∧ (o.success = true → utf8 o.stdout = none →
        resolcCompile utf8 parse o = Except.error CompileErr.invalidUtf8) := by
  refine ⟨?_, ?_, ?_⟩
  · intro h
    simp [resolcCompile, compile_output, h]
  · intro out hout
    by_cases hs : o.success
    · refine ⟨hs, ?_⟩
      cases hu : utf8 o.stdout with
      | none => simp [resolcCompile, compile_output, hs, hu] at hout
      | some s =>
        cases hp : parse s with
        | none => simp [resolcCompile, compile_output, hs, hu, hp] at hout
        | some out2 =>
          simp only [resolcCompile, compile_output, hs, if_true, hu, hp] at hout
          refine ⟨s, rfl, ?_⟩
          rw [hp]
          injection hout with h2
          rw [h2]
    · exfalso
      simp only [Bool.not_eq_true] at hs
      simp [resolcCompile, compile_output, hs] at hout
  · intro hs hu
    simp [resolcCompile, compile_output, hs, hu]

/-- Toy UTF-8 decoder used by the C7 witness. -/
def c7Utf8 : List Nat → Option RStr :=
  fun bytes => if bytes = [104, 105] then some "hi".data else none

/-- Toy JSON deserializer used by the C7 witness. -/
def c7Parse : RStr → Option Nat :=
  fun s => if s = "hi".data then some 7 else none

/-- C7 witness: the three behaviours evaluated at concrete process outputs. -/
theorem C7_compile_output_handling_witness :
    resolcCompile c7Utf8 c7Parse ⟨false, [104, 105], [101]⟩
        = Except.error (CompileErr.solcOutput [104, 105] [101])
    ∧ ((⟨true, [104, 105], []⟩ : ProcessOutput).success = true
      ∧ ∃ s, c7Utf8 [104, 105] = some s ∧ c7Parse s = some 7)
    ∧ resolcCompile c7Utf8 c7Parse ⟨true, [255], []⟩
        = Except.error CompileErr.invalidUtf8 :=
  ⟨(C7_compile_output_handling c7Utf8 c7Parse ⟨false, [104, 105], [101]⟩).1 (by decide),
    (C7_compile_output_handling c7Utf8 c7Parse ⟨true, [104, 105], []⟩).2.1 7 (by decide),
    (C7_compile_output_handling c7Utf8 c7Parse ⟨true, [255], []⟩).2.2 (by decide) (by decide)⟩

/-- Rust `str::split` with a character-class predicate, keeping empty
segments. -/
def splitPred (p : Char → Bool) : RStr → List RStr
  | [] => [[]]
  | x :: xs =>
    match splitPred p xs with
    | [] => [[]]
    | r :: rs => if p x then [] :: r :: rs else (x :: r) :: rs

/-- Strip one trailing carriage return. -/
def dropTrailingCR (l : RStr) : RStr :=
  if l.getLast? = some '\r' then l.dropLast else l

/-- Rust `str::lines`: split at newlines, stripping one trailing `\r`
per line.  (Rust also drops a final empty segment after a trailing
newline; both call sites immediately filter out blank lines, so the
composition is unaffected by this difference.) -/
def rustLines (s : RStr) : List RStr := (splitChar '\n' s).map dropTrailingCR

/-- Rust `str::trim`. -/
def trimStr (s : RStr) : RStr :=
  ((s.dropWhile Char.isWhitespace).reverse.dropWhile Char.isWhitespace).reverse

/-- `stdout.lines().filter(|l| !l.trim().is_empty())`, shared by both
version-discovery functions. -/
def nonEmptyLines (s : RStr) : List RStr :=
  (rustLines s).filter (fun l => !(trimStr l).isEmpty)

/-- Rust `str::contains` for a string pattern. -/
def hasSub (pat : RStr) : RStr → Bool
  | [] => pat.isEmpty
  | c :: rest => pat.isPrefixOf (c :: rest) || hasSub pat rest

/-- Rust `str::split_whitespace`. -/
def wsTokens (l : RStr) : List RStr :=
  (splitPred Char.isWhitespace l).filter (fun t => !t.isEmpty)

/-- Rust `str::trim_start_matches` for a character pattern. -/
def dropLeading (c : Char) : RStr → RStr
  | [] => []
  | x :: xs => if x = c then dropLeading c xs else x :: xs

/-- Rust `str::trim_start_matches` for a string pattern: repeatedly
strip the prefix while present (fuel-bounded by the string length). -/
def dropPreAux (pat : RStr) : Nat → RStr → RStr
  | 0, s => s
  | fuel + 1, s =>
    if pat.isPrefixOf s ∧ pat ≠ [] then dropPreAux pat fuel (s.drop pat.length) else s

def dropPre (pat s : RStr) : RStr := dropPreAux pat (s.length + 1) s

/-- Rust `str::replace`: left-to-right, non-overlapping. -/
def replaceAux (pat rep : RStr) : Nat → RStr → RStr
  | 0, s => s
  | fuel + 1, s =>
    if pat.isPrefixOf s ∧ pat ≠ [] then rep ++ replaceAux pat rep fuel (s.drop pat.length)
    else
      match s with
      | [] => []
      | c :: cs => c :: replaceAux pat rep fuel cs

def replaceSub (pat rep s : RStr) : RStr := replaceAux pat rep (s.length + 1) s

/-- A semantic version.  Pre-release and build components are stripped
before parsing by the code under verification, so only the numeric
triple is modelled. -/
structure SemVer where
  major : Nat
  minor : Nat
  patch : Nat
deriving DecidableEq

/-- `SolcVersionInfo` (compiler.rs lines 95-101). -/
structure SolcVersionInfo where
  version : SemVer
  reviveVersion : Option SemVer
deriving DecidableEq

/-- The error cases distinguished by the version-discovery functions. -/
inductive VersionErr
  | solcOutput (stdout stderr : RStr)
  | versionNotFound
  | versionUnretrievable
  | semverFailure
deriving DecidableEq

/-- `s.trim_start_matches('v').split('+').next().unwrap_or(s)`. -/
def versionTokenNorm (t : RStr) : RStr := (splitChar '+' (dropLeading 'v' t)).headD t

/-- `version_from_output` (compiler.rs lines 623-643), parameterized
over `semver::Version::from_str` (external crate). -/
def version_from_output (parseV : RStr → Option SemVer) (success : Bool)
    (stdout stderr : RStr) : Except VersionErr SemVer :=
  if success then
    match (nonEmptyLines stdout).find? (fun l => hasSub "version".data l) with
    | none => Except.error VersionErr.versionNotFound
    | some line =>
      match ((wsTokens line).find? (fun t =>
          List.isPrefixOf "0.".data t || List.isPrefixOf "v0.".data t)).bind
          (fun t => parseV (versionTokenNorm t)) with
      | some v => Except.ok v
      | none => Except.error VersionErr.versionUnretrievable
  else Except.error (VersionErr.solcOutput stdout stderr)

/-- The final parsing step of `get_solc_version_info` applied to the
selected line. -/
def solcVersionOfLine (parseV : RStr → Option SemVer) (l : RStr) :
    Except VersionErr SolcVersionInfo :=
  match parseV (replaceSub ".g++".data ".gcc".data (dropPre "Version: ".data l)) with
  | some v => Except.ok ⟨v, none⟩
  | none => Except.error VersionErr.semverFailure

/-- `Resolc::get_solc_version_info` (compiler.rs lines 381-403): takes
the line at index 1 of the non-empty lines of stdout. -/
def get_solc_version_info (parseV : RStr → Option SemVer) (success : Bool)
    (stdout stderr : RStr) : Except VersionErr SolcVersionInfo :=
  if success then
    match (nonEmptyLines stdout).get? 1 with
    | none => Except.error VersionErr.versionNotFound
    | some l => solcVersionOfLine parseV l
  else Except.error (VersionErr.solcOutput stdout stderr)

theorem find?_decomp {α : Type} {p : α → Bool} {l : List α} {a : α}
    (h : l.find? p = some a) :
    ∃ l1 l2, l = l1 ++ a :: l2 ∧ (∀ x ∈ l1, p x = false) ∧ p a = true := by
  induction l with
  | nil => simp [List.find?] at h
  | cons x xs ih =>
    by_cases hx : p x = true
    · rw [List.find?_cons_of_pos _ hx] at h
      injection h with h2
      subst h2
      exact ⟨[], xs, rfl, by simp, hx⟩
    · rw [List.find?_cons_of_neg _ hx] at h
      obtain ⟨l1, l2, heq, hall, hpa⟩ := ih h
      refine ⟨x :: l1, l2, by rw [heq]; rfl, ?_, hpa⟩
      intro y hy
      rcases List.mem_cons.mp hy with hy1 | hy1
      · subst hy1
        exact Bool.not_eq_true _ ▸ (by simpa using hx)
      · exact hall y hy1

/-- Modelled from the spec: `semver::Version::from_str` (external
crate), restricted to plain `major.minor.patch` triples — sufficient
for every concrete input evaluated here. -/
def parseSemVer (s : RStr) : Option SemVer :=
  match splitChar '.' s with
  | [a, b, c] =>
    if (!a.isEmpty && a.all Char.isDigit)
        && ((!b.isEmpty && b.all Char.isDigit) && (!c.isEmpty && c.all Char.isDigit)) then
      some ⟨a.foldl (fun acc d => acc * 10 + (d.toNat - 48)) 0,
        b.foldl (fun acc d => acc * 10 + (d.toNat - 48)) 0,
        c.foldl (fun acc d => acc * 10 + (d.toNat - 48)) 0⟩
    else none
  | _ => none

/-- C8 counterexample: on a stdout whose only (hence first) non-empty
line is version-bearing and parseable, `get_solc_version_info` fails,
because it unconditionally reads the line at index 1. -/
theorem C8_counterexample :
    get_solc_version_info parseSemVer true "Version: 0.8.20".data []
        = Except.error VersionErr.versionNotFound
    ∧ nonEmptyLines "Version: 0.8.20".data = ["Version: 0.8.20".data]
    ∧ parseSemVer (replaceSub ".g++".data ".gcc".data
        (dropPre "Version: ".data "Version: 0.8.20".data)) = some ⟨0, 8, 20⟩ := by
  decide

/-- C8 (amended): `version_from_output` selects the first non-empty line
containing `version` and within it the first whitespace token starting
with `0.` or `v0.`, normalizes it (leading `v`s dropped, build metadata
after `+` stripped) and parses it, and wraps a failed process into an
error; `get_solc_version_info`, however, derives the solc version from
the second non-empty line of stdout (index 1), failing whenever fewer
than two non-empty lines exist. -/
theorem C8_version_discovery (parseV : RStr → Option SemVer) (stdout stderr : RStr)
    (v : SemVer)
    (hok : version_from_output parseV true stdout stderr = Except.ok v) :
    (∃ l1 line l2, nonEmptyLines stdout = l1 ++ line :: l2
      ∧ (∀ x ∈ l1, hasSub "version".data x = false)
      ∧ hasSub "version".data line = true
      ∧ ∃ t1 tok t2, wsTokens line = t1 ++ tok :: t2
          ∧ (∀ x ∈ t1,
              (List.isPrefixOf "0.".data x || List.isPrefixOf "v0.".data x) = false)
          ∧ (List.isPrefixOf "0.".data tok || List.isPrefixOf "v0.".data tok) = true
          ∧ parseV (versionTokenNorm tok) = some v)
    ∧ (∀ so se, version_from_output parseV false so se
        = Except.error (VersionErr.solcOutput so se))
    ∧ (∀ so se, (nonEmptyLines so).get? 1 = none →
        get_solc_version_info parseV true so se = Except.error VersionErr.versionNotFound)
    ∧ (∀ so se l, (nonEmptyLines so).get? 1 = some l →
        get_solc_version_info parseV true so se = solcVersionOfLine parseV l) := by
  refine ⟨?_, ?_, ?_, ?_⟩
  · unfold version_from_output at hok
    rw [if_pos rfl] at hok
    split at hok
    · exact absurd hok (by simp)
    · rename_i line hline
      split at hok
      · rename_i v2 hres
        injection hok with hv2
        subst hv2
        obtain ⟨tok, hfind, hparse⟩ := Option.bind_eq_some.mp hres
        obtain ⟨l1, l2, heq1, hall1, hp1⟩ := find?_decomp hline
        obtain ⟨t1, t2, heq2, hall2, hp2⟩ := find?_decomp hfind
        exact ⟨l1, line, l2, heq1, hall1, hp1,
          t1, tok, t2, heq2, hall2, hp2, hparse⟩
      · exact absurd hok (by simp)
  · intro so se
    rfl
  · intro so se h
    unfold get_solc_version_info
    rw [if_pos rfl, h]
  · intro so se l h
    unfold get_solc_version_info
    rw [if_pos rfl, h]

/-- C8 witness: the amended statement evaluated at a concrete resolc
version banner. -/
theorem C8_version_discovery_witness :
    (version_from_output parseSemVer true "resolc version v0.1.0".data []
        = Except.ok ⟨0, 1, 0⟩)
    ∧ ((∃ l1 line l2,
        nonEmptyLines "resolc version v0.1.0".data = l1 ++ line :: l2
        ∧ (∀ x ∈ l1, hasSub "version".data x = false)
        ∧ hasSub "version".data line = true
        ∧ ∃ t1 tok t2, wsTokens line = t1 ++ tok :: t2
            ∧ (∀ x ∈ t1,
                (List.isPrefixOf "0.".data x || List.isPrefixOf "v0.".data x) = false)
            ∧ (List.isPrefixOf "0.".data tok || List.isPrefixOf "v0.".data tok) = true
            ∧ parseSemVer (versionTokenNorm tok) = some ⟨0, 1, 0⟩)
      ∧ (∀ so se, version_from_output parseSemVer false so se
          = Except.error (VersionErr.solcOutput so se))
      ∧ (∀ so se, (nonEmptyLines so).get? 1 = none →
          get_solc_version_info parseSemVer true so se
            = Except.error VersionErr.versionNotFound)
      ∧ (∀ so se l, (nonEmptyLines so).get? 1 = some l →
          get_solc_version_info parseSemVer true so se = solcVersionOfLine parseSemVer l)) :=
  ⟨by decide,
    C8_version_discovery parseSemVer "resolc version v0.1.0".data [] ⟨0, 1, 0⟩ (by decide)⟩

/-- Diagnostic severity. -/
inductive Severity
  | info
  | warning
  | error
deriving DecidableEq

/-- A numeric rank for severities, `error` highest. -/
def severityRank : Severity → Nat
  | Severity.info => 0
  | Severity.warning => 1
  | Severity.error => 2

/-- A compiler diagnostic as far as error filtering inspects it. -/
structure Diagnostic where
  severity : Severity
  errorCode : Option Nat
  file : Option RStr
deriving DecidableEq

/-- Modelled from the spec: whether one diagnostic makes the run count
as failed per §7 — error severity, admitted by the severity filter, and
ignored neither via its error code nor via its source file path. -/
def diagnosticCounts (ignoredCodes : List Nat) (ignoredPaths : List RStr) (filt : Severity)
    (d : Diagnostic) : Bool :=
  decide (d.severity = Severity.error)
    && decide (severityRank filt ≤ severityRank d.severity)
    && !(match d.errorCode with
        | none => false
        | some c => inList c ignoredCodes)
    && !(match d.file with
        | none => false
        | some f => inList f ignoredPaths)

/-- Modelled from the spec: `AggregatedCompilerOutput::has_error`
(crates/compilers/src/output, not under src/): the run has errors iff
some diagnostic counts under the configured filters. -/
def hasError (errors : List Diagnostic) (ignoredCodes : List Nat)
    (ignoredPaths : List RStr) (filt : Severity) : Bool :=
  errors.any (diagnosticCounts ignoredCodes ignoredPaths filt)

/-- The artifact conversion selected by `CompiledState::write_artifacts`. -/
inductive ArtifactsConversion
  | resolcConversion
  | fallbackAllOutput
  | emitOnOutput
deriving DecidableEq

/-- The branch structure of `CompiledState::write_artifacts` (project.rs
lines 263-311): `resolc_output_to_artifacts` when artifacts are
disabled, the fallback `output_to_artifacts` conversion when the run has
errors, the emitting `on_output` otherwise. -/
def write_artifacts (noArtifacts hasErr : Bool) : ArtifactsConversion :=
  if noArtifacts then ArtifactsConversion.resolcConversion
  else if hasErr then ArtifactsConversion.fallbackAllOutput
  else ArtifactsConversion.emitOnOutput

/-- `skip_write_to_disk` of `ArtifactsState::write_cache` (project.rs
line 333). -/
def skip_write_to_disk (noArtifacts hasErr : Bool) : Bool := noArtifacts || hasErr

/-- The `write_to_disk` flag passed to `cache.consume` (project.rs line
337). -/
def consumeWriteFlag (noArtifacts hasErr : Bool) : Bool :=
  !skip_write_to_disk noArtifacts hasErr

/-- C4: when the aggregated output has an error-severity diagnostic not
filtered out by the configured ignore lists or severity filter, the
write-artifacts stage (with artifact output enabled) converts via the
fallback all-output conversion, and the write-cache stage invokes the
cache consume step with persistence disabled — the latter whatever the
`no_artifacts` setting is. -/
theorem C4_error_run_behaviour (errors : List Diagnostic) (codes : List Nat)
    (paths : List RStr) (filt : Severity) (noArt : Bool)
    (he : hasError errors codes paths filt = true) (hna : noArt = false) :
    write_artifacts noArt (hasError errors codes paths filt)
        = ArtifactsConversion.fallbackAllOutput
    ∧ consumeWriteFlag noArt (hasError errors codes paths filt) = false
    ∧ (∀ b : Bool, consumeWriteFlag b (hasError errors codes paths filt) = false) := by
  subst hna
  rw [he]
  refine ⟨rfl, rfl, ?_⟩
  intro b
  cases b <;> rfl

/-- The diagnostic used by the C4 witness. -/
def c4Diag : Diagnostic := ⟨Severity.error, some 100, some "a.sol".data⟩

/-- C4 witness: an unignored error-severity diagnostic evaluated through
the stage selectors. -/
theorem C4_error_run_behaviour_witness :
    (hasError [c4Diag] [] [] Severity.error = true ∧ (false : Bool) = false)
    ∧ (write_artifacts false (hasError [c4Diag] [] [] Severity.error)
          = ArtifactsConversion.fallbackAllOutput
      ∧ consumeWriteFlag false (hasError [c4Diag] [] [] Severity.error) = false
      ∧ (∀ b : Bool, consumeWriteFlag b (hasError [c4Diag] [] [] Severity.error) = false)) :=
  ⟨⟨by decide, rfl⟩,
    C4_error_run_behaviour [c4Diag] [] [] Severity.error false (by decide) rfl⟩

/-- `OutputSelection`: file → contract → requested output values. -/
abbrev OutputSel : Type := List (RStr × List (RStr × List RStr))

/-- The thirteen output-selection values admitted by
`ResolcVersionedInput::build` (input.rs lines 69-83). -/
def allowedSelection : List RStr :=
  ["abi".data, "metadata".data, "devdoc".data, "userdoc".data,
    "evm.methodIdentifiers".data, "storageLayout".data, "ast".data, "irOptimized".data,
    "evm.legacyAssembly".data, "evm.bytecode".data, "evm.deployedBytecode".data,
    "evm.assembly".data, "ir".data]

/-- The output-selection transformation performed by
`ResolcVersionedInput::build` (input.rs lines 63-97): the settings are
first sanitized for the target version (upstream `Settings::sanitize`,
kept abstract), then every per-file, per-contract selection list is
filtered down to the admitted values. -/
def buildOutputSelection (sanitize : OutputSel → OutputSel) (sel : OutputSel) : OutputSel :=
  (sanitize sel).map (fun fe =>
    (fe.1, fe.2.map (fun ce =>
      (ce.1, ce.2.filter (fun item => inList item allowedSelection)))))

/-- C9: every value remaining in any per-file, per-contract
output-selection list of the built input is one of the thirteen admitted
values; any other requested value has been removed. -/
theorem C9_selection_filtered (sanitize : OutputSel → OutputSel) (sel : OutputSel)
    (fe : RStr × List (RStr × List RStr)) (ce : RStr × List RStr) (v : RStr)
    (hfe : fe ∈ buildOutputSelection sanitize sel) (hce : ce ∈ fe.2) (hv : v ∈ ce.2) :
    v ∈ allowedSelection := by
  obtain ⟨fe0, hfe0, hfeq⟩ := List.mem_map.mp hfe
  subst hfeq
  obtain ⟨ce0, hce0, hceq⟩ := List.mem_map.mp hce
  subst hceq
  have hv2 := List.mem_filter.mp hv
  exact (inList_iff _ _).mp hv2.2

/-- C9 witness: a request mixing an admitted value with a foreign one. -/
theorem C9_selection_filtered_witness :
    ((("f.sol".data, [("C".data, ["abi".data])]) : RStr × List (RStr × List RStr))
        ∈ buildOutputSelection id
            [("f.sol".data, [("C".data, ["abi".data, "evm.gasEstimates".data])])]
      ∧ (("C".data, ["abi".data]) : RStr × List RStr)
          ∈ [("C".data, ["abi".data])]
      ∧ "abi".data ∈ ["abi".data])
    ∧ "abi".data ∈ allowedSelection :=
  ⟨⟨by decide, by decide, by decide⟩,
    C9_selection_filtered id
      [("f.sol".data, [("C".data, ["abi".data, "evm.gasEstimates".data])])]
      ("f.sol".data, [("C".data, ["abi".data])]) ("C".data, ["abi".data]) "abi".data
      (by decide) (by decide) (by decide)⟩

/-- `build_context_new` (resolc/mod.rs lines 54-68): collect into the
source-id table every output source whose path is among the input's
source paths. -/
def build_context_new (inputPaths : List RPath) (outSources : List (RPath × Nat)) :
    List (Nat × RPath) :=
  outSources.foldl
    (fun acc ps => if inList ps.1 inputPaths then upsert acc ps.2 ps.1 else acc) []

theorem mem_upsert {κ ν : Type} [DecidableEq κ] {x : κ × ν} {m : List (κ × ν)} {k : κ}
    {v : ν} (h : x ∈ upsert m k v) : x ∈ m ∨ x = (k, v) := by
  induction m with
  | nil => exact Or.inr (by simpa [upsert] using h)
  | cons kv rest ih =>
    obtain ⟨k0, v0⟩ := kv
    by_cases hk : k0 = k
    · simp only [upsert, if_pos hk] at h
      rcases List.mem_cons.mp h with h1 | h1
      · exact Or.inr h1
      · exact Or.inl (List.mem_cons_of_mem _ h1)
    · simp only [upsert, if_neg hk] at h
      rcases List.mem_cons.mp h with h1 | h1
      · exact Or.inl (h1 ▸ List.mem_cons_self _ _)
      · rcases ih h1 with h2 | h2
        · exact Or.inl (List.mem_cons_of_mem _ h2)
        · exact Or.inr h2

theorem mapLookup_upsert_isSome {κ ν : Type} [DecidableEq κ] (m : List (κ × ν)) (k j : κ)
    (v : ν) (h : (mapLookup m j).isSome = true) :
    (mapLookup (upsert m k v) j).isSome = true := by
  by_cases hj : j = k
  · subst hj
    rw [mapLookup_upsert_self]
    rfl
  · rw [mapLookup_upsert_ne m k j v hj]
    exact h

theorem bc_sound_aux (inputPaths : List RPath) :
    ∀ (outS : List (RPath × Nat)) (acc : List (Nat × RPath)) (x : Nat × RPath),
      x ∈ outS.foldl
          (fun acc ps => if inList ps.1 inputPaths then upsert acc ps.2 ps.1 else acc) acc
      → x ∈ acc ∨ (x.2 ∈ inputPaths ∧ (x.2, x.1) ∈ outS) := by
  intro outS
  induction outS with
  | nil =>
    intro acc x hx
    exact Or.inl (by simpa using hx)
  | cons ps rest ih =>
    intro acc x hx
    rw [List.foldl_cons] at hx
    rcases ih _ x hx with h1 | h1
    · by_cases hc : inList ps.1 inputPaths = true
      · rw [if_pos hc] at h1
        rcases mem_upsert h1 with h2 | h2
        · exact Or.inl h2
        · refine Or.inr ⟨?_, ?_⟩
          · rw [h2]
            exact (inList_iff _ _).mp hc
          · rw [h2]
            simp
      · rw [if_neg hc] at h1
        exact Or.inl h1
    · exact Or.inr ⟨h1.1, List.mem_cons_of_mem _ h1.2⟩

theorem bc_keys_persist (inputPaths : List RPath) :
    ∀ (outS : List (RPath × Nat)) (acc : List (Nat × RPath)) (j : Nat),
      (mapLookup acc j).isSome = true →
      (mapLookup (outS.foldl
          (fun acc ps => if inList ps.1 inputPaths then upsert acc ps.2 ps.1 else acc)
          acc) j).isSome = true := by
  intro outS
  induction outS with
  | nil =>
    intro acc j h
    simpa using h
  | cons ps rest ih =>
    intro acc j h
    rw [List.foldl_cons]
    apply ih
    by_cases hc : inList ps.1 inputPaths = true
    · rw [if_pos hc]
      exact mapLookup_upsert_isSome acc ps.2 j ps.1 h
    · rw [if_neg hc]
      exact h

theorem bc_complete_aux (inputPaths : List RPath) :
    ∀ (outS : List (RPath × Nat)) (acc : List (Nat × RPath)) (q : RPath) (i : Nat),
      (q, i) ∈ outS → q ∈ inputPaths →
      (mapLookup (outS.foldl
          (fun acc ps => if inList ps.1 inputPaths then upsert acc ps.2 ps.1 else acc)
          acc) i).isSome = true := by
  intro outS
  induction outS with
  | nil =>
    intro acc q i h
    exact absurd h (List.not_mem_nil _)
  | cons ps rest ih =>
    intro acc q i hmem hq
    rw [List.foldl_cons]
    rcases List.mem_cons.mp hmem with h1 | h1
    · subst h1
      apply bc_keys_persist
      have hc : inList q inputPaths = true := (inList_iff _ _).mpr hq
      rw [if_pos hc, mapLookup_upsert_self]
      rfl
    · exact ih _ q i h1 hq

/-- C10: every entry of the source-id table maps the id of some output
source, whose path is among the input's source paths, to that path; and
every output source whose path is among the input's source paths has its
id present in the table. -/
theorem C10_build_context (inputPaths : List RPath) (outSources : List (RPath × Nat))
    (id0 : Nat) (p q : RPath) (i : Nat)
    (hmem : (id0, p) ∈ build_context_new inputPaths outSources)
    (hq : (q, i) ∈ outSources) (hqi : q ∈ inputPaths) :
    p ∈ inputPaths ∧ (p, id0) ∈ outSources
    ∧ (mapLookup (build_context_new inputPaths outSources) i).isSome = true := by
  rcases bc_sound_aux inputPaths outSources [] (id0, p) hmem with h1 | h1
  · exact absurd h1 (List.not_mem_nil _)
  · exact ⟨h1.1, h1.2, bc_complete_aux inputPaths outSources [] q i hq hqi⟩

/-- C10 witness: two output sources, only one of which is an input
source. -/
theorem C10_build_context_witness :
    ((5, (["a.sol".data] : RPath)) ∈
        build_context_new [["a.sol".data]] [(["a.sol".data], 5), (["b.sol".data], 6)]
      ∧ ((["a.sol".data] : RPath), 5) ∈ [(["a.sol".data], 5), (["b.sol".data], 6)]
      ∧ (["a.sol".data] : RPath) ∈ [["a.sol".data]])
    ∧ ((["a.sol".data] : RPath) ∈ [["a.sol".data]]
      ∧ ((["a.sol".data] : RPath), 5) ∈ [(["a.sol".data], 5), (["b.sol".data], 6)]
      ∧ (mapLookup
          (build_context_new [["a.sol".data]] [(["a.sol".data], 5), (["b.sol".data], 6)])
          5).isSome = true) :=
  ⟨⟨by decide, by decide, by decide⟩,
    C10_build_context [["a.sol".data]] [(["a.sol".data], 5), (["b.sol".data], 6)]
      5 ["a.sol".data] ["a.sol".data] 5 (by decide) (by decide) (by decide)⟩

end Revive
